import Mathlib

/-!
Shallow embedding of the `planter` terminal directory visualizer
(`src/main.rs`): the tree model built from a filesystem walk, the
animated-reveal state machine, viewport scrolling/selection, click
handling and the preview loader.  The external filesystem is modelled
as explicit inputs: the startup walk is a list of `WalkEntry` and
directory reads are an oracle `Fsys` mapping a path to the result of
`read_dir`.  `Instant` is modelled as a `Nat` millisecond timestamp,
`u16`/`usize` arithmetic as `Nat` (Rust `saturating_sub` and Lean `Nat`
subtraction agree).
-/

namespace Planter

/-- A filesystem path, as its list of segments (`PathBuf`). -/
abbrev Path := List String

/-- `Path::parent`: `None` for an empty path, otherwise the path with its
last segment dropped. -/
def parentPath (p : Path) : Option Path :=
  match p with
  | [] => none
  | _ => some p.dropLast

/-- `Path::file_name().unwrap_or_default()`: the last segment, or `""`. -/
def entryName (p : Path) : String := p.getLast?.getD ""

/-- `FileNode` from `main.rs`. -/
structure FileNode where
  path : Path
  name : String
  is_dir : Bool
  depth : Nat
  size : Nat
  children_count : Nat
  is_last_child : Bool
  deriving DecidableEq, Repr

/-- `Stats` from `main.rs`. -/
structure Stats where
  total_files : Nat
  total_dirs : Nat
  total_size : Nat
  max_depth : Nat
  deriving DecidableEq, Repr

/-- `PreviewItem` from `main.rs`. -/
structure PreviewItem where
  name : String
  is_dir : Bool
  size : Nat
  deriving DecidableEq, Repr

/-- One entry yielded by `fs::read_dir`: its file name, whether
`entry.path().is_dir()`, and the `fs::metadata(..).len()` result
(`none` when metadata fails). -/
structure RawEntry where
  name : String
  is_dir : Bool
  metaSize : Option Nat
  deriving DecidableEq, Repr

/-- The filesystem oracle for `fs::read_dir`: `none` models `Err`. -/
abbrev Fsys := Path → Option (List RawEntry)

/-- One `Ok` entry yielded by the `WalkDir` iterator: path, depth,
`path.is_dir()`, the file's metadata size (`none` when metadata fails;
only consulted for files) and `fs::read_dir(path).count()` (only
consulted for directories). -/
structure WalkEntry where
  path : Path
  depth : Nat
  is_dir : Bool
  metaSize : Option Nat
  childCount : Nat
  deriving DecidableEq, Repr

/-- A `ratatui` `Rect` reduced to what the click handler reads. -/
structure Rect where
  y : Nat
  height : Nat
  deriving DecidableEq, Repr

/-- `Rect::top`. -/
def Rect.top (r : Rect) : Nat := r.y

/-- `Rect::bottom`. -/
def Rect.bottom (r : Rect) : Nat := r.y + r.height

/-- The `App` state from `main.rs` (minus the live filesystem, which all
operations receive explicitly). -/
structure App where
  nodes : List FileNode
  animation_depth : Nat
  animation_complete : Bool
  stats : Stats
  root_path : Path
  scroll_offset : Nat
  selected_index : Option Nat
  animation_frame : Nat
  preview_contents : List PreviewItem
  preview_scroll_offset : Nat
  last_click_time : Option Nat
  last_click_index : Option Nat
  deriving DecidableEq, Repr

/-- The walk loop body of `App::new`: update `Stats` for the entry and
append a `FileNode` when it is a directory (`is_last_child` is filled in
later). -/
def processEntry (acc : List FileNode × Stats) (e : WalkEntry) :
    List FileNode × Stats :=
  let nodes := acc.1
  let stats := acc.2
  let stats :=
    if e.is_dir then
      { stats with total_dirs := stats.total_dirs + 1 }
    else
      { stats with
          total_files := stats.total_files + 1,
          total_size := stats.total_size + e.metaSize.getD 0 }
  let stats :=
    if e.depth > stats.max_depth then { stats with max_depth := e.depth }
    else stats
  let nodes :=
    if e.is_dir then
      nodes ++ [{ path := e.path, name := entryName e.path, is_dir := e.is_dir,
                  depth := e.depth, size := 0, children_count := e.childCount,
                  is_last_child := false }]
    else nodes
  (nodes, stats)

/-- The inner `j` loop of the `is_last_child` computation in `App::new`:
scan forward; a node of lesser depth ends the scan (last), a node of the
same depth with the same parent makes the current node not last. -/
def isLastScan (d : Nat) (p : Option Path) : List FileNode → Bool
  | [] => true
  | n :: rest =>
    if n.depth < d then true
    else if n.depth == d && parentPath n.path == p then false
    else isLastScan d p rest

/-- The outer `i` loop of the `is_last_child` computation: each node's
flag is decided by scanning the nodes after it. -/
def computeLastFlags : List FileNode → List FileNode
  | [] => []
  | n :: rest =>
      { n with is_last_child := isLastScan n.depth (parentPath n.path) rest }
        :: computeLastFlags rest

/-- The node/stat-building part of `App::new` (`TreeIndex.build`). -/
def buildApp (entries : List WalkEntry) : List FileNode × Stats :=
  let r := entries.foldl processEntry ([], ⟨0, 0, 0, 0⟩)
  (computeLastFlags r.1, r.2)

/-- `App::is_node_visible`. -/
def App.is_node_visible (app : App) (n : FileNode) : Bool :=
  n.depth ≤ app.animation_depth

/-- `App::update_preview`: clear the preview and its scroll offset, then
(for an in-range index whose directory read succeeds) rebuild the sorted
listing. -/
def previewLe (a b : PreviewItem) : Bool :=
  match a.is_dir, b.is_dir with
  | true, false => true
  | false, true => false
  | _, _ => decide (a.name ≤ b.name)

def App.update_preview (fsys : Fsys) (app : App) (node_index : Nat) : App :=
  let app := { app with preview_contents := [], preview_scroll_offset := 0 }
  match app.nodes[node_index]? with
  | none => app
  | some node =>
    match fsys node.path with
    | none => app
    | some entries =>
      let items : List PreviewItem := entries.map fun e =>
        { name := e.name, is_dir := e.is_dir,
          size := if !e.is_dir then e.metaSize.getD 0 else 0 }
      { app with preview_contents := items.mergeSort previewLe }

/-- `App::new` after the walk: initial state, then select index 0 and
load its preview when the node list is non-empty. -/
def App.new (fsys : Fsys) (path : Path) (entries : List WalkEntry) : App :=
  let r := buildApp entries
  let app : App :=
    { nodes := r.1, animation_depth := 0, animation_complete := false,
      stats := r.2, root_path := path, scroll_offset := 0,
      selected_index := none, animation_frame := 0, preview_contents := [],
      preview_scroll_offset := 0, last_click_time := none,
      last_click_index := none }
  if app.nodes.isEmpty then app
  else App.update_preview fsys { app with selected_index := some 0 } 0

/-- `App::increment_animation`. -/
def App.increment_animation (app : App) : App :=
  let app :=
    if app.animation_depth ≤ app.stats.max_depth then
      { app with animation_depth := app.animation_depth + 1 }
    else
      { app with animation_complete := true }
  if !app.animation_complete then
    { app with animation_frame := (app.animation_frame + 1) % 3 }
  else app

/-- `App::is_double_click`. -/
def App.is_double_click (app : App) (idx : Nat) (now : Nat) : Bool :=
  match app.last_click_time, app.last_click_index with
  | some last_time, some last_idx =>
      last_idx == idx && decide (now - last_time < 500)
  | _, _ => false

/-- `App::handle_mouse_click`.  The second component is the open action
issued through `opener::open` (the opened path), `none` when no open
happens. -/
def App.handle_mouse_click (fsys : Fsys) (app : App) (row : Nat)
    (area : Rect) (now : Nat) : App × Option Path :=
  if !app.animation_complete then (app, none)
  else if area.top < row ∧ row < area.bottom - 1 then
    let clicked_index := row - area.top - 1 + app.scroll_offset
    let visible_nodes := app.nodes.filter fun n => app.is_node_visible n
    match visible_nodes[clicked_index]? with
    | none => (app, none)
    | some node =>
      match app.nodes.findIdx? (fun n => n.path == node.path) with
      | none => (app, none)
      | some idx =>
        if app.is_double_click idx now then
          let opened := if node.is_dir then some node.path else none
          ({ app with last_click_time := none, last_click_index := none },
           opened)
        else
          let app := { app with selected_index := some idx }
          let app := App.update_preview fsys app idx
          let app :=
            { app with last_click_time := some now,
                       last_click_index := some idx }
          (app, none)
  else (app, none)

/-- `App::scroll_up`. -/
def App.scroll_up (app : App) : App :=
  if app.scroll_offset > 0 then
    { app with scroll_offset := app.scroll_offset - 1 }
  else app

/-- The `visible_count` computed by `App::scroll_down` (and by the title
rendering): how many nodes the reveal animation currently shows. -/
def App.visible_count (app : App) : Nat :=
  (app.nodes.filter fun n => app.is_node_visible n).length

/-- `App::scroll_down` (`max_scroll` inlined). -/
def App.scroll_down (app : App) (visible_lines : Nat) : App :=
  if app.scroll_offset < app.visible_count - visible_lines then
    { app with scroll_offset := app.scroll_offset + 1 }
  else app

/-- `App::get_visible_node_indices`. -/
def App.get_visible_node_indices (app : App) : List Nat :=
  (app.nodes.enum.filter fun p => app.is_node_visible p.2).map Prod.fst

/-- `App::select_previous`. -/
def App.select_previous (fsys : Fsys) (app : App) : App :=
  let visible_nodes := app.get_visible_node_indices
  if visible_nodes.isEmpty then app
  else
    match app.selected_index with
    | none => app
    | some current =>
      match visible_nodes.findIdx? (fun idx => idx == current) with
      | none => app
      | some pos =>
        if pos > 0 then
          match visible_nodes[pos - 1]? with
          | some new_idx =>
            App.update_preview fsys { app with selected_index := some new_idx }
              new_idx
          | none => app
        else app

/-- `App::select_next`. -/
def App.select_next (fsys : Fsys) (app : App) : App :=
  let visible_nodes := app.get_visible_node_indices
  if visible_nodes.isEmpty then app
  else
    match app.selected_index with
    | none => app
    | some current =>
      match visible_nodes.findIdx? (fun idx => idx == current) with
      | none => app
      | some pos =>
        if pos < visible_nodes.length - 1 then
          match visible_nodes[pos + 1]? with
          | some new_idx =>
            App.update_preview fsys { app with selected_index := some new_idx }
              new_idx
          | none => app
        else app

/-- `App::ensure_selected_visible`. -/
def App.ensure_selected_visible (app : App) (visible_lines : Nat) : App :=
  match app.selected_index with
  | none => app
  | some selected_idx =>
    match app.get_visible_node_indices.findIdx? (fun idx => idx == selected_idx) with
    | none => app
    | some pos =>
      if pos < app.scroll_offset then { app with scroll_offset := pos }
      else if app.scroll_offset + visible_lines ≤ pos then
        { app with scroll_offset := pos - (visible_lines - 1) }
      else app

/-- `App::scroll_preview_up`. -/
def App.scroll_preview_up (app : App) : App :=
  if app.preview_scroll_offset > 0 then
    { app with preview_scroll_offset := app.preview_scroll_offset - 1 }
  else app

/-- `App::scroll_preview_down`. -/
def App.scroll_preview_down (app : App) (lines : Nat) : App :=
  if app.preview_contents.isEmpty then app
  else
    let max_offset := app.preview_contents.length - 1
    { app with
        preview_scroll_offset :=
          min (app.preview_scroll_offset + lines) max_offset }

/-- The `KeyCode::PageUp` arm of `run_app`: ten `scroll_up` calls. -/
def App.page_up (app : App) : App :=
  (List.range 10).foldl (fun a _ => a.scroll_up) app

/-- The `KeyCode::PageDown` arm of `run_app`: ten `scroll_down` calls. -/
def App.page_down (app : App) (visible_lines : Nat) : App :=
  (List.range 10).foldl (fun a _ => a.scroll_down visible_lines) app

/-- The selection invariant, as an executable check: when a node is
selected and in range, its depth is at most the animator's current
revealed depth. -/
def selInv (app : App) : Bool :=
  match app.selected_index with
  | none => true
  | some i =>
    match app.nodes[i]? with
    | none => true
    | some n => decide (n.depth ≤ app.animation_depth)

/-- The walker contract used by `App::new`: when the walk is non-empty
its first entry is the root directory itself, at depth 0. -/
def firstEntryRootOk : List WalkEntry → Bool
  | [] => true
  | e :: _ => e.depth == 0 && e.is_dir

/-! ### Concrete test fixtures -/

/-- An `App` in its initial animation state with no nodes. -/
def baseApp : App :=
  { nodes := [], animation_depth := 0, animation_complete := false,
    stats := ⟨0, 0, 0, 0⟩, root_path := [], scroll_offset := 0,
    selected_index := none, animation_frame := 0, preview_contents := [],
    preview_scroll_offset := 0, last_click_time := none,
    last_click_index := none }

/-- The walk of `root/{A/{x/}, B/}` with two files (`root/A/f2.txt` and
`root/f1.txt`), in pre-order as `WalkDir` yields it. -/
def c2Entries : List WalkEntry :=
  [ { path := ["root"], depth := 0, is_dir := true, metaSize := none,
      childCount := 3 },
    { path := ["root", "A"], depth := 1, is_dir := true, metaSize := none,
      childCount := 2 },
    { path := ["root", "A", "x"], depth := 2, is_dir := true,
      metaSize := none, childCount := 0 },
    { path := ["root", "A", "f2.txt"], depth := 2, is_dir := false,
      metaSize := some 10, childCount := 0 },
    { path := ["root", "B"], depth := 1, is_dir := true, metaSize := none,
      childCount := 0 },
    { path := ["root", "f1.txt"], depth := 1, is_dir := false,
      metaSize := some 20, childCount := 0 } ]

/-! ### C1: animation completion -/

/-- Once `animation_complete` is set, `increment_animation` keeps it set. -/
theorem increment_animation_complete_mono (app : App)
    (h : app.animation_complete = true) :
    app.increment_animation.animation_complete = true := by
  unfold App.increment_animation
  by_cases h1 : app.animation_depth ≤ app.stats.max_depth <;> simp [h1, h]

/-- While the animator is growing and `animation_depth + i` stays at most
`max_depth + 1`, `i` ticks add `i` to the depth, leave the animator
incomplete and do not touch the stats. -/
theorem increment_animation_iterate_growing (i : Nat) :
    ∀ app : App, app.animation_complete = false →
      app.animation_depth + i ≤ app.stats.max_depth + 1 →
      (App.increment_animation^[i] app).animation_depth =
          app.animation_depth + i ∧
        (App.increment_animation^[i] app).animation_complete = false ∧
        (App.increment_animation^[i] app).stats = app.stats := by
  induction i with
  | zero => intro app hc _; simp [hc]
  | succ i ih =>
    intro app hc hd
    have hle : app.animation_depth ≤ app.stats.max_depth := by omega
    have hstep : app.increment_animation.animation_depth =
          app.animation_depth + 1 ∧
        app.increment_animation.animation_complete = false ∧
        app.increment_animation.stats = app.stats := by
      unfold App.increment_animation
      simp [hle, hc]
    rw [Function.iterate_succ_apply]
    have hrec := ih app.increment_animation hstep.2.1
      (by rw [hstep.1, hstep.2.2]; omega)
    refine ⟨?_, hrec.2.1, by rw [hrec.2.2, hstep.2.2]⟩
    rw [hrec.1, hstep.1]; omega

/-- Claim C1 (amended): starting from the initial animation state
(`animation_depth = 0`, `animation_complete = false`), `animation_complete`
is false after `max_depth + 1` ticks, becomes true after `max_depth + 2`
ticks, and remains true after every further tick. -/
theorem c1_animation_completes (app : App) (h0 : app.animation_depth = 0)
    (hc : app.animation_complete = false) (k : Nat) :
    (App.increment_animation^[app.stats.max_depth + 1] app).animation_complete
        = false ∧
      (App.increment_animation^[app.stats.max_depth + 2 + k]
          app).animation_complete = true := by
  have hg := increment_animation_iterate_growing (app.stats.max_depth + 1) app
    hc (by omega)
  refine ⟨hg.2.1, ?_⟩
  have base : (App.increment_animation^[app.stats.max_depth + 2]
      app).animation_complete = true := by
    have hsplit : app.stats.max_depth + 2 = (app.stats.max_depth + 1) + 1 := by
      omega
    rw [hsplit, Function.iterate_succ_apply']
    set b := App.increment_animation^[app.stats.max_depth + 1] app with hb
    have hgt : ¬ b.animation_depth ≤ b.stats.max_depth := by
      rw [hg.1, hg.2.2, h0]; omega
    unfold App.increment_animation
    simp [hgt]
  clear hg
  induction k with
  | zero => exact base
  | succ k ih =>
    have hsplit : app.stats.max_depth + 2 + (k + 1) =
        (app.stats.max_depth + 2 + k) + 1 := by omega
    rw [hsplit, Function.iterate_succ_apply']
    exact increment_animation_complete_mono _ ih

/-- Claim C1, counterexample to the claim as stated: with `max_depth = 0`,
after `max_depth + 1 = 1` tick from the initial animation state the
animator is still not complete (it completes only on the next tick). -/
theorem c1_counterexample :
    baseApp.animation_depth = 0 ∧ baseApp.animation_complete = false ∧
      baseApp.stats.max_depth = 0 ∧
      (App.increment_animation^[baseApp.stats.max_depth + 1]
          baseApp).animation_complete = false := by
  refine ⟨rfl, rfl, rfl, ?_⟩; decide

/-- Claim C1, witness for the amended theorem at `baseApp`. -/
theorem c1_witness :
    (App.increment_animation^[baseApp.stats.max_depth + 2 + 0]
        baseApp).animation_complete = true :=
  (c1_animation_completes baseApp rfl rfl 0).2

/-! ### C2: the end-to-end build scenario -/

/-- Claim C2, counterexample to the claim as stated: the build of
`root/{A/{x/}, B/}` (4 directories) yields 4 nodes, not 3. -/
theorem c2_counterexample : (buildApp c2Entries).1.length ≠ 3 := by decide

/-- Claim C2 (amended): for `root/{A/{x/}, B/}` with its 2 files, the
build yields 4 nodes in order `[root(d0), A(d1), x(d2), B(d1)]` with
`is_last_child = [true, false, true, true]`, and the stats record 4
directories and a maximal depth of 2. -/
theorem c2_build_scenario :
    (buildApp c2Entries).1.map (fun n => (n.name, n.depth, n.is_last_child)) =
        [("root", 0, true), ("A", 1, false), ("x", 2, true), ("B", 1, true)] ∧
      (buildApp c2Entries).1.length = 4 ∧
      (buildApp c2Entries).2.total_dirs = 4 ∧
      (buildApp c2Entries).2.max_depth = 2 :=
  ⟨rfl, rfl, rfl, rfl⟩

/-! ### C5: input is rejected while the animation is growing -/

/-- Claim C5: while the animator has not reached its complete state,
`handle_mouse_click` changes no state and issues no open action, for
every row, area, time and filesystem. -/
theorem c5_click_rejected_while_growing (fsys : Fsys) (app : App) (row : Nat)
    (area : Rect) (now : Nat) (h : app.animation_complete = false) :
    App.handle_mouse_click fsys app row area now = (app, none) := by
  unfold App.handle_mouse_click
  simp [h]

/-- Claim C5, witness at `baseApp` (whose animation is not complete). -/
theorem c5_witness :
    App.handle_mouse_click (fun _ => none) baseApp 1 ⟨0, 5⟩ 0 =
      (baseApp, none) :=
  c5_click_rejected_while_growing (fun _ => none) baseApp 1 ⟨0, 5⟩ 0 rfl

/-! ### update_preview bookkeeping lemmas -/

/-- `update_preview` touches only the two preview fields, and always
leaves the preview scroll offset at 0. -/
theorem update_preview_fields (fsys : Fsys) (app : App) (i : Nat) :
    (App.update_preview fsys app i).nodes = app.nodes ∧
      (App.update_preview fsys app i).selected_index = app.selected_index ∧
      (App.update_preview fsys app i).last_click_time = app.last_click_time ∧
      (App.update_preview fsys app i).last_click_index =
        app.last_click_index ∧
      (App.update_preview fsys app i).animation_depth =
        app.animation_depth ∧
      (App.update_preview fsys app i).animation_complete =
        app.animation_complete ∧
      (App.update_preview fsys app i).stats = app.stats ∧
      (App.update_preview fsys app i).scroll_offset = app.scroll_offset ∧
      (App.update_preview fsys app i).preview_scroll_offset = 0 := by
  unfold App.update_preview
  cases h1 : app.nodes[i]? with
  | none => simp [h1]
  | some node => cases h2 : fsys node.path <;> simp [h1, h2]

/-- The preview contents loaded by `update_preview` depend only on the
node list (and the filesystem), not on the rest of the state. -/
theorem update_preview_contents_congr (fsys : Fsys) (a b : App) (i : Nat)
    (h : a.nodes = b.nodes) :
    (App.update_preview fsys a i).preview_contents =
      (App.update_preview fsys b i).preview_contents := by
  unfold App.update_preview
  simp only [h]
  cases h1 : b.nodes[i]? with
  | none => simp [h1]
  | some node => cases h2 : fsys node.path <;> simp [h1, h2]

/-! ### C10: update_preview resets on failure -/

/-- Claim C10: `update_preview` always resets the preview scroll offset
to 0, and when the index is out of range or the directory read fails the
resulting preview list is empty. -/
theorem c10_update_preview_reset (fsys : Fsys) (app : App) (idx : Nat)
    (h : app.nodes.length ≤ idx ∨
      ∃ n, app.nodes[idx]? = some n ∧ fsys n.path = none) :
    (∀ j, (App.update_preview fsys app j).preview_scroll_offset = 0) ∧
      (App.update_preview fsys app idx).preview_contents = [] := by
  refine ⟨fun j => (update_preview_fields fsys app j).2.2.2.2.2.2.2.2, ?_⟩
  rcases h with h | ⟨n, hn, hfs⟩
  · have : app.nodes[idx]? = none := by
      rw [List.getElem?_eq_none_iff]; exact h
    unfold App.update_preview
    simp [this]
  · unfold App.update_preview
    simp [hn, hfs]

/-- Claim C10, witness: out-of-range index on the empty node list. -/
theorem c10_witness :
    (App.update_preview (fun _ => none) baseApp 0).preview_contents = [] :=
  (c10_update_preview_reset (fun _ => none) baseApp 0
    (Or.inl (by decide))).2

/-! ### C9: preview scroll clamp -/

/-- Claim C9: the preview scroll offset stays in
`[0, max(0, len(entries) - 1)]`: `scroll_preview_up` decrements only
above 0, and `scroll_preview_down` clamps to `len - 1` (not a viewport
height), for every entry-list length and every `lines` argument. -/
theorem c9_preview_scroll_clamp (app : App) (lines : Nat)
    (h : app.preview_scroll_offset ≤ app.preview_contents.length - 1) :
    (app.scroll_preview_up.preview_scroll_offset =
        app.preview_scroll_offset - 1) ∧
      ((app.scroll_preview_down lines).preview_scroll_offset =
        if app.preview_contents.isEmpty then app.preview_scroll_offset
        else min (app.preview_scroll_offset + lines)
          (app.preview_contents.length - 1)) ∧
      app.scroll_preview_up.preview_contents = app.preview_contents ∧
      (app.scroll_preview_down lines).preview_contents =
        app.preview_contents ∧
      app.scroll_preview_up.preview_scroll_offset ≤
        app.preview_contents.length - 1 ∧
      (app.scroll_preview_down lines).preview_scroll_offset ≤
        app.preview_contents.length - 1 := by
  have hup : app.scroll_preview_up.preview_scroll_offset =
        app.preview_scroll_offset - 1 ∧
      app.scroll_preview_up.preview_contents = app.preview_contents := by
    unfold App.scroll_preview_up
    by_cases h1 : app.preview_scroll_offset > 0 <;> simp [h1] <;> omega
  have hdown : (app.scroll_preview_down lines).preview_scroll_offset =
        (if app.preview_contents.isEmpty then app.preview_scroll_offset
         else min (app.preview_scroll_offset + lines)
           (app.preview_contents.length - 1)) ∧
      (app.scroll_preview_down lines).preview_contents =
        app.preview_contents := by
    unfold App.scroll_preview_down
    by_cases h2 : app.preview_contents.isEmpty <;> simp [h2]
  refine ⟨hup.1, hdown.1, hup.2, hdown.2, ?_, ?_⟩
  · rw [hup.1]; omega
  · rw [hdown.1]
    by_cases h2 : app.preview_contents.isEmpty <;> simp [h2] <;> omega

/-- Claim C9, witness at a one-entry preview list. -/
theorem c9_witness :
    ({ baseApp with
        preview_contents := [{ name := "a", is_dir := true, size := 0 }]
      : App}.scroll_preview_down 7).preview_scroll_offset ≤
      ({ baseApp with
          preview_contents := [{ name := "a", is_dir := true, size := 0 }]
        : App}).preview_contents.length - 1 :=
  (c9_preview_scroll_clamp _ 7 (by decide)).2.2.2.2.2

/-! ### C7: tree viewport scroll clamp -/

/-- `scroll_up` keeps the visible count and moves the offset down one
(staying at 0). -/
theorem scroll_up_step (app : App) :
    app.scroll_up.visible_count = app.visible_count ∧
      app.scroll_up.scroll_offset = app.scroll_offset - 1 := by
  unfold App.scroll_up
  by_cases h1 : app.scroll_offset > 0
  · rw [if_pos h1]; exact ⟨rfl, rfl⟩
  · rw [if_neg h1]; exact ⟨rfl, by omega⟩

/-- `scroll_down` keeps the visible count and moves the offset up one
when strictly below the clamp. -/
theorem scroll_down_step (app : App) (H : Nat) :
    (app.scroll_down H).visible_count = app.visible_count ∧
      (app.scroll_down H).scroll_offset =
        (if app.scroll_offset < app.visible_count - H then
          app.scroll_offset + 1
         else app.scroll_offset) := by
  unfold App.scroll_down
  by_cases h1 : app.scroll_offset < app.visible_count - H
  · rw [if_pos h1]; exact ⟨rfl, (if_pos h1).symm⟩
  · rw [if_neg h1]; exact ⟨rfl, (if_neg h1).symm⟩

/-- A `for _ in 0..n` loop applying `f` is `n`-fold iteration of `f`. -/
theorem foldl_range_eq_iterate {α : Type} (f : α → α) (n : Nat) :
    ∀ x : α, (List.range n).foldl (fun a _ => f a) x = f^[n] x := by
  induction n with
  | zero => intro x; rfl
  | succ n ih =>
    intro x
    rw [List.range_succ, List.foldl_append, ih x,
      Function.iterate_succ_apply']
    rfl

/-- Iterated `scroll_up` keeps the visible count and the scroll clamp. -/
theorem scroll_up_iterate_bound (H : Nat) (k : Nat) :
    ∀ app : App, app.scroll_offset ≤ app.visible_count - H →
      (App.scroll_up^[k] app).visible_count = app.visible_count ∧
        (App.scroll_up^[k] app).scroll_offset ≤ app.visible_count - H := by
  induction k with
  | zero =>
    intro app h
    exact ⟨by rw [Function.iterate_zero_apply],
      by rw [Function.iterate_zero_apply]; exact h⟩
  | succ k ih =>
    intro app h
    rw [Function.iterate_succ_apply]
    have hs := scroll_up_step app
    have hrec := ih app.scroll_up (by rw [hs.1, hs.2]; omega)
    rw [hrec.1, hs.1]
    exact ⟨rfl, by rw [hs.1] at hrec; omega⟩

/-- Iterated `scroll_down` keeps the visible count and the scroll
clamp. -/
theorem scroll_down_iterate_bound (H : Nat) (k : Nat) :
    ∀ app : App, app.scroll_offset ≤ app.visible_count - H →
      ((fun a => App.scroll_down a H)^[k] app).visible_count =
          app.visible_count ∧
        ((fun a => App.scroll_down a H)^[k] app).scroll_offset ≤
          app.visible_count - H := by
  induction k with
  | zero =>
    intro app h
    exact ⟨by rw [Function.iterate_zero_apply],
      by rw [Function.iterate_zero_apply]; exact h⟩
  | succ k ih =>
    intro app h
    rw [Function.iterate_succ_apply]
    have hs := scroll_down_step app H
    have hofs : (app.scroll_down H).scroll_offset ≤
        (app.scroll_down H).visible_count - H := by
      rw [hs.1, hs.2]
      by_cases h1 : app.scroll_offset < app.visible_count - H <;>
        simp [h1] <;> omega
    have hrec := ih (app.scroll_down H) hofs
    rw [hrec.1, hs.1]
    refine ⟨rfl, ?_⟩
    rw [hs.1] at hrec
    exact hrec.2

/-- Claim C7: for visible-set size `N = visible_count` and viewport
height `H`, if `scroll_offset` is within `[0, max(0, N - H)]` then
`scroll_up` and `scroll_down H` move by exactly one line (saturating at
the ends) and stay within the clamp, and page-up/page-down are exactly
ten repeated single-line scroll calls, which therefore also stay within
the clamp. -/
theorem c7_scroll_clamp (app : App) (H : Nat)
    (h : app.scroll_offset ≤ app.visible_count - H) :
    app.scroll_up.scroll_offset = app.scroll_offset - 1 ∧
      ((app.scroll_down H).scroll_offset =
        if app.scroll_offset < app.visible_count - H then
          app.scroll_offset + 1
        else app.scroll_offset) ∧
      app.scroll_up.scroll_offset ≤ app.visible_count - H ∧
      (app.scroll_down H).scroll_offset ≤ app.visible_count - H ∧
      app.page_up = App.scroll_up^[10] app ∧
      app.page_down H = (fun a => App.scroll_down a H)^[10] app ∧
      app.page_up.scroll_offset ≤ app.visible_count - H ∧
      (app.page_down H).scroll_offset ≤ app.visible_count - H := by
  have hup := scroll_up_step app
  have hdown := scroll_down_step app H
  have hpu : app.page_up = App.scroll_up^[10] app :=
    foldl_range_eq_iterate App.scroll_up 10 app
  have hpd : app.page_down H = (fun a => App.scroll_down a H)^[10] app :=
    foldl_range_eq_iterate (fun a => App.scroll_down a H) 10 app
  refine ⟨hup.2, hdown.2, by rw [hup.2]; omega, ?_, hpu, hpd, ?_, ?_⟩
  · rw [hdown.2]
    by_cases h1 : app.scroll_offset < app.visible_count - H <;>
      simp [h1] <;> omega
  · rw [hpu]; exact (scroll_up_iterate_bound H 10 app h).2
  · rw [hpd]; exact (scroll_down_iterate_bound H 10 app h).2

/-- Claim C7, witness at `baseApp` with viewport height 1. -/
theorem c7_witness : baseApp.page_up.scroll_offset ≤
    baseApp.visible_count - 1 :=
  (c7_scroll_clamp baseApp 1 (by decide)).2.2.2.2.2.2.1

/-! ### C8: ensure_selected_visible -/

/-- Claim C8: with a positive viewport height `H`, when a node is
selected and sits at position `pos` of the visible-index sequence,
`ensure_selected_visible H` leaves the selected position inside the
window `[scroll_offset, scroll_offset + H)`, snapping to `pos` when it
was above the window, to `pos - (H - 1)` (making it the last visible
line) when it was below, and changing nothing when it was already in
view. -/
theorem c8_ensure_selected_visible (app : App) (H sel pos : Nat)
    (hH : 0 < H) (hsel : app.selected_index = some sel)
    (hpos : app.get_visible_node_indices.findIdx? (fun idx => idx == sel) =
      some pos) :
    (app.ensure_selected_visible H).scroll_offset ≤ pos ∧
      pos < (app.ensure_selected_visible H).scroll_offset + H ∧
      (pos < app.scroll_offset →
        (app.ensure_selected_visible H).scroll_offset = pos) ∧
      (app.scroll_offset + H ≤ pos →
        (app.ensure_selected_visible H).scroll_offset = pos - (H - 1)) ∧
      (app.scroll_offset ≤ pos → pos < app.scroll_offset + H →
        (app.ensure_selected_visible H).scroll_offset =
          app.scroll_offset) := by
  unfold App.ensure_selected_visible
  rw [hsel]
  simp only [hpos]
  by_cases h1 : pos < app.scroll_offset
  · rw [if_pos h1]
    dsimp only
    refine ⟨le_refl pos, by omega, fun _ => rfl, by omega, by omega⟩
  · rw [if_neg h1]
    by_cases h2 : app.scroll_offset + H ≤ pos
    · rw [if_pos h2]
      dsimp only
      refine ⟨by omega, by omega, by omega, fun _ => rfl, by omega⟩
    · rw [if_neg h2]
      exact ⟨by omega, by omega, by omega, by omega, fun _ _ => rfl⟩

/-- A single root node, used to exercise selection and clicks. -/
def rNode : FileNode :=
  { path := ["r"], name := "r", is_dir := true, depth := 0, size := 0,
    children_count := 0, is_last_child := true }

/-- An `App` with one revealed, selected node. -/
def selApp : App :=
  { baseApp with nodes := [rNode], selected_index := some 0 }

/-- Claim C8, witness at `selApp` with viewport height 1. -/
theorem c8_witness : (selApp.ensure_selected_visible 1).scroll_offset ≤ 0 :=
  (c8_ensure_selected_visible selApp 1 0 0 (by decide) rfl (by decide)).1

/-! ### C6: preview sort order -/

/-- The preview comparator is transitive. -/
theorem previewLe_trans (a b c : PreviewItem) (hab : previewLe a b = true)
    (hbc : previewLe b c = true) : previewLe a c = true := by
  unfold previewLe at *
  cases ha : a.is_dir <;> cases hb : b.is_dir <;> cases hc : c.is_dir <;>
    simp_all <;> exact le_trans hab hbc

/-- The preview comparator is total. -/
theorem previewLe_total (a b : PreviewItem) :
    (previewLe a b || previewLe b a) = true := by
  unfold previewLe
  cases ha : a.is_dir <;> cases hb : b.is_dir <;> simp_all <;>
    exact le_total _ _

/-- What `mergeSort previewLe` guarantees, in the spec's terms: no file
ever precedes a directory, and names are ordered within a kind. -/
theorem mergeSort_previewLe_pairwise (l : List PreviewItem) :
    List.Pairwise (fun a b : PreviewItem =>
        (a.is_dir = false → b.is_dir = false) ∧
          (a.is_dir = b.is_dir → a.name ≤ b.name))
      (l.mergeSort previewLe) := by
  have hs := List.sorted_mergeSort previewLe_trans previewLe_total l
  refine hs.imp ?_
  intro a b hab
  unfold previewLe at hab
  cases ha : a.is_dir <;> cases hb : b.is_dir <;> simp_all

/-- The `read_dir` oracle for the C6 scenario: the root `["r"]` holds a
file `b.txt` and directories `a` and `c`, in raw (unsorted) order. -/
def c6fsys : Fsys := fun p =>
  if p = ["r"] then
    some [ { name := "b.txt", is_dir := false, metaSize := some 5 },
           { name := "a", is_dir := true, metaSize := none },
           { name := "c", is_dir := true, metaSize := none } ]
  else none

/-- An `App` whose single node is the root `["r"]`. -/
def c6App : App := { baseApp with nodes := [rNode] }

/-- Claim C6: for every input directory listing, the preview loader's
output has all directories before all files and is lexicographic by name
within each kind; in particular for children `b.txt` (file), `a` (dir),
`c` (dir) the output order is `["a", "c", "b.txt"]`. -/
theorem c6_preview_sorted (fsys : Fsys) (app : App) (idx : Nat) :
    List.Pairwise (fun a b : PreviewItem =>
        (a.is_dir = false → b.is_dir = false) ∧
          (a.is_dir = b.is_dir → a.name ≤ b.name))
      (App.update_preview fsys app idx).preview_contents ∧
      (App.update_preview c6fsys c6App 0).preview_contents.map
          PreviewItem.name = ["a", "c", "b.txt"] := by
  refine ⟨?_, ?_⟩
  swap
  · have hac : ("a" : String) ≤ "c" := by
      rw [String.le_iff_toList_le]; decide
    simp [App.update_preview, c6App, baseApp, rNode, c6fsys, previewLe,
      List.mergeSort, hac]
  unfold App.update_preview
  cases h1 : app.nodes[idx]? with
  | none => simp [h1]
  | some node =>
    cases h2 : fsys node.path with
    | none => simp [h1, h2]
    | some entries =>
      simp only [h1, h2]
      exact mergeSort_previewLe_pairwise _

/-! ### C3: double-click behavior -/

/-- An `App` whose animation is complete, with one node, selected, and a
pending click on index 0 recorded at time 0. -/
def clickApp : App :=
  { baseApp with
    nodes := [rNode], animation_depth := 1,
    animation_complete := true, selected_index := some 0,
    last_click_time := some 0, last_click_index := some 0 }

/-- Claim C3: on a valid click (animation complete, row inside the list
area, a visible node under the click) with a pending click `(j, t)`
recorded: when the click hits the pending index strictly within 500ms it
issues an open action precisely when the node is a directory and clears
the click tracking; otherwise (different index, or 500ms or more
elapsed) it selects the clicked index, refreshes the preview, and
records the clicked index with the current time. -/
theorem c3_double_click_behavior (fsys : Fsys) (app : App) (row : Nat)
    (area : Rect) (now : Nat) (node : FileNode) (idx t j : Nat)
    (hc : app.animation_complete = true)
    (hr1 : area.top < row) (hr2 : row < area.bottom - 1)
    (hn : (app.nodes.filter fun n => app.is_node_visible n)[row - area.top
      - 1 + app.scroll_offset]? = some node)
    (hf : app.nodes.findIdx? (fun n => n.path == node.path) = some idx)
    (ht : app.last_click_time = some t)
    (hj : app.last_click_index = some j) :
    (j = idx ∧ now - t < 500 →
      (App.handle_mouse_click fsys app row area now).2 =
          (if node.is_dir then some node.path else none) ∧
        ((App.handle_mouse_click fsys app row area now).2 ≠ none ↔
          node.is_dir = true) ∧
        (App.handle_mouse_click fsys app row area now).1.last_click_time =
          none ∧
        (App.handle_mouse_click fsys app row area now).1.last_click_index =
          none) ∧
      (¬ (j = idx ∧ now - t < 500) →
        (App.handle_mouse_click fsys app row area now).1.selected_index =
            some idx ∧
          (App.handle_mouse_click fsys app row area now).1.preview_contents =
            (App.update_preview fsys app idx).preview_contents ∧
          (App.handle_mouse_click fsys app row area
              now).1.preview_scroll_offset = 0 ∧
          (App.handle_mouse_click fsys app row area now).1.last_click_time =
            some now ∧
          (App.handle_mouse_click fsys app row area now).1.last_click_index =
            some idx ∧
          (App.handle_mouse_click fsys app row area now).2 = none) := by
  have e1 : app.is_double_click idx now =
      (j == idx && decide (now - t < 500)) := by
    unfold App.is_double_click
    rw [ht, hj]
  by_cases hcase : j = idx ∧ now - t < 500
  · have hdc : app.is_double_click idx now = true := by
      rw [e1, hcase.1]
      simp [hcase.2]
    have hred : App.handle_mouse_click fsys app row area now =
        ({ app with last_click_time := none, last_click_index := none },
         if node.is_dir then some node.path else none) := by
      unfold App.handle_mouse_click
      rw [if_neg (by simp [hc]), if_pos ⟨hr1, hr2⟩]
      simp only [hn, hf, hdc, if_true]
    refine ⟨fun _ => ?_, fun hne => absurd hcase hne⟩
    rw [hred]
    refine ⟨rfl, ?_, rfl, rfl⟩
    cases hdir : node.is_dir <;> simp
  · have hdc : app.is_double_click idx now = false := by
      rw [e1]
      by_cases h1 : j = idx
      · have h2 : ¬ now - t < 500 := fun h2 => hcase ⟨h1, h2⟩
        simp [h1, h2]
      · simp [h1]
    have hred : App.handle_mouse_click fsys app row area now =
        ({ App.update_preview fsys { app with selected_index := some idx }
            idx with
          last_click_time := some now, last_click_index := some idx },
         none) := by
      unfold App.handle_mouse_click
      rw [if_neg (by simp [hc]), if_pos ⟨hr1, hr2⟩]
      simp only [hn, hf, hdc, Bool.false_eq_true, if_false]
    refine ⟨fun hpos => absurd hpos hcase, fun _ => ?_⟩
    rw [hred]
    have hfields := update_preview_fields fsys
      { app with selected_index := some idx } idx
    exact ⟨hfields.2.1, update_preview_contents_congr fsys _ app idx rfl,
      hfields.2.2.2.2.2.2.2.2, rfl, rfl, rfl⟩

/-- Claim C3, witness: a second click on the same index 100ms after the
first opens the (directory) node and clears the click tracking. -/
theorem c3_witness :
    (App.handle_mouse_click (fun _ => none) clickApp 1 ⟨0, 3⟩
        100).1.last_click_time = none ∧
      (App.handle_mouse_click (fun _ => none) clickApp 1 ⟨0, 3⟩ 100).2 ≠
        none :=
  have h := c3_double_click_behavior (fun _ => none) clickApp 1 ⟨0, 3⟩ 100
    rNode 0 0 0 (by decide) (by decide) (by decide) (by decide) (by decide)
    (by decide) (by decide)
  ⟨(h.1 ⟨rfl, by decide⟩).2.2.1,
    ((h.1 ⟨rfl, by decide⟩).2.1).mpr rfl⟩

/-! ### C4: the selection invariant -/

/-- `selInv` holds once the selected index resolves to a node whose depth
is within the revealed depth. -/
theorem selInv_of_fields (b : App) (i : Nat) (n : FileNode)
    (hsel : b.selected_index = some i) (hn : b.nodes[i]? = some n)
    (hd : n.depth ≤ b.animation_depth) : selInv b = true := by
  unfold selInv
  rw [hsel]
  simp only [hn, decide_eq_true_eq]
  exact hd

/-- `selInv` transfers to a state with the same nodes and selection and a
revealed depth at least as large. -/
theorem selInv_mono (a b : App) (hn : b.nodes = a.nodes)
    (hs : b.selected_index = a.selected_index)
    (hd : a.animation_depth ≤ b.animation_depth)
    (h : selInv a = true) : selInv b = true := by
  unfold selInv at h ⊢
  rw [hn, hs]
  cases hsel : a.selected_index with
  | none => rfl
  | some i =>
    rw [hsel] at h
    simp only at h ⊢
    cases hget : a.nodes[i]? with
    | none => simp [hget]
    | some n =>
      rw [hget] at h
      simp only [hget, decide_eq_true_eq] at h ⊢
      exact le_trans h hd

/-- Members of `get_visible_node_indices` index nodes whose depth is
within the currently revealed depth. -/
theorem mem_visible_indices (app : App) (i : Nat)
    (h : i ∈ app.get_visible_node_indices) :
    ∃ n, app.nodes[i]? = some n ∧ n.depth ≤ app.animation_depth := by
  unfold App.get_visible_node_indices at h
  simp only [List.mem_map, List.mem_filter] at h
  obtain ⟨⟨k, n⟩, ⟨hmem, hvis⟩, hfst⟩ := h
  simp only at hfst
  subst hfst
  refine ⟨n, List.mem_enum_iff_getElem?.mp hmem, ?_⟩
  unfold App.is_node_visible at hvis
  exact of_decide_eq_true hvis

/-- What `findIdx? p = some i` says about position `i`. -/
theorem findIdx?_spec {α : Type} (p : α → Bool) (l : List α) (i : Nat)
    (h : l.findIdx? p = some i) : ∃ a, l[i]? = some a ∧ p a = true := by
  obtain ⟨hlt, hfi⟩ := List.findIdx?_eq_some_iff_findIdx_eq.mp h
  subst hfi
  exact ⟨l.get ⟨l.findIdx p, hlt⟩, List.getElem?_eq_some.mpr ⟨hlt, rfl⟩,
    @List.findIdx_getElem _ p l hlt⟩

/-- Two nodes at positions of the node list with the same path are the
same node, when paths are unique. -/
theorem eq_of_same_path (nodes : List FileNode)
    (hnd : (nodes.map FileNode.path).Nodup) (i j : Nat) (m n : FileNode)
    (hm : nodes[i]? = some m) (hn : nodes[j]? = some n)
    (hp : m.path = n.path) : m = n := by
  have h1 : (nodes.map FileNode.path)[i]? = some m.path := by
    rw [List.getElem?_map, hm]; rfl
  have h2 : (nodes.map FileNode.path)[j]? = some n.path := by
    rw [List.getElem?_map, hn]; rfl
  have hi : i < (nodes.map FileNode.path).length :=
    (List.getElem?_eq_some.mp h1).1
  have hij : i = j := List.getElem?_inj hi hnd (by rw [h1, h2, hp])
  rw [hij, hn] at hm
  exact Option.some.inj hm.symm

/-- `select_previous` preserves the selection invariant. -/
theorem select_previous_selInv (fsys : Fsys) (app : App)
    (h : selInv app = true) : selInv (App.select_previous fsys app) = true := by
  unfold App.select_previous
  dsimp only
  split
  · exact h
  split
  · exact h
  split
  · exact h
  split
  · split
    · rename_i new_idx hget
      have hmem : new_idx ∈ app.get_visible_node_indices :=
        List.mem_iff_getElem?.mpr ⟨_, hget⟩
      obtain ⟨n, hn, hd⟩ := mem_visible_indices app new_idx hmem
      have hf := update_preview_fields fsys
        { app with selected_index := some new_idx } new_idx
      apply selInv_of_fields _ new_idx n
      · exact hf.2.1
      · rw [hf.1]; exact hn
      · rw [hf.2.2.2.2.1]; exact hd
    · exact h
  · exact h

/-- `select_next` preserves the selection invariant. -/
theorem select_next_selInv (fsys : Fsys) (app : App)
    (h : selInv app = true) : selInv (App.select_next fsys app) = true := by
  unfold App.select_next
  dsimp only
  split
  · exact h
  split
  · exact h
  split
  · exact h
  split
  · split
    · rename_i new_idx hget
      have hmem : new_idx ∈ app.get_visible_node_indices :=
        List.mem_iff_getElem?.mpr ⟨_, hget⟩
      obtain ⟨n, hn, hd⟩ := mem_visible_indices app new_idx hmem
      have hf := update_preview_fields fsys
        { app with selected_index := some new_idx } new_idx
      apply selInv_of_fields _ new_idx n
      · exact hf.2.1
      · rw [hf.1]; exact hn
      · rw [hf.2.2.2.2.1]; exact hd
    · exact h
  · exact h

/-- `increment_animation` never decreases the revealed depth and touches
neither the node list nor the selection. -/
theorem increment_animation_fields (app : App) :
    app.increment_animation.nodes = app.nodes ∧
      app.increment_animation.selected_index = app.selected_index ∧
      app.animation_depth ≤ app.increment_animation.animation_depth := by
  unfold App.increment_animation
  by_cases h1 : app.animation_depth ≤ app.stats.max_depth
  · rw [if_pos h1]
    cases h2 : app.animation_complete <;> simp [h2]
  · rw [if_neg h1]
    exact ⟨rfl, rfl, le_refl _⟩

/-- `increment_animation` preserves the selection invariant. -/
theorem increment_animation_selInv (app : App) (h : selInv app = true) :
    selInv app.increment_animation = true := by
  have hf := increment_animation_fields app
  exact selInv_mono app _ hf.1 hf.2.1 hf.2.2 h

/-- `handle_mouse_click` preserves the selection invariant, given that
node paths are unique (as filesystem paths are). -/
theorem handle_mouse_click_selInv (fsys : Fsys) (app : App) (row : Nat)
    (area : Rect) (now : Nat)
    (hnd : (app.nodes.map FileNode.path).Nodup)
    (h : selInv app = true) :
    selInv (App.handle_mouse_click fsys app row area now).1 = true := by
  unfold App.handle_mouse_click
  dsimp only
  split
  · exact h
  split
  · split
    · exact h
    · rename_i node hnode
      split
      · exact h
      · rename_i idx hidx
        split
        · exact selInv_mono app _ rfl rfl (le_refl _) h
        · obtain ⟨m, hm, hpm⟩ := findIdx?_spec _ _ _ hidx
          have hnodemem : node ∈ app.nodes.filter
              (fun n => app.is_node_visible n) :=
            List.mem_iff_getElem?.mpr ⟨_, hnode⟩
          obtain ⟨hmem2, hvis⟩ := List.mem_filter.mp hnodemem
          obtain ⟨k, hk⟩ := List.mem_iff_getElem?.mp hmem2
          have hmn : m = node := eq_of_same_path app.nodes hnd idx k m node
            hm hk (by simpa using hpm)
          have hdep : m.depth ≤ app.animation_depth := by
            rw [hmn]
            unfold App.is_node_visible at hvis
            exact of_decide_eq_true hvis
          have hf := update_preview_fields fsys
            { app with selected_index := some idx } idx
          apply selInv_of_fields _ idx m
          · exact hf.2.1
          · rw [hf.1]; exact hm
          · rw [hf.2.2.2.2.1]; exact hdep
  · exact h

/-- The node component produced by one walk step: a directory appends
its node, a file appends nothing. -/
theorem processEntry_fst (acc : List FileNode × Stats) (e : WalkEntry) :
    (processEntry acc e).1 = acc.1 ++
      (if e.is_dir then
        [{ path := e.path, name := entryName e.path, is_dir := e.is_dir,
           depth := e.depth, size := 0, children_count := e.childCount,
           is_last_child := false }]
       else []) := by
  unfold processEntry
  cases he : e.is_dir <;> simp [he]

/-- The walk fold only ever appends nodes: what is already collected
stays a prefix. -/
theorem fold_processEntry_prefix (l : List WalkEntry) :
    ∀ (ns : List FileNode) (s : Stats),
      ∃ extra s2, l.foldl processEntry (ns, s) = (ns ++ extra, s2) := by
  induction l with
  | nil => intro ns s; exact ⟨[], s, by simp⟩
  | cons e l ih =>
    intro ns s
    rw [List.foldl_cons]
    obtain ⟨extra, s2, hfold⟩ :=
      ih (processEntry (ns, s) e).1 (processEntry (ns, s) e).2
    rw [Prod.mk.eta] at hfold
    refine ⟨(if e.is_dir then
      [{ path := e.path, name := entryName e.path, is_dir := e.is_dir,
         depth := e.depth, size := 0, children_count := e.childCount,
         is_last_child := false }]
     else []) ++ extra, s2, ?_⟩
    rw [hfold, processEntry_fst, List.append_assoc]

/-- When the walk starts with the root directory entry, the built node
list starts with a node of the root entry's depth. -/
theorem buildApp_cons_head (e : WalkEntry) (rest : List WalkEntry)
    (he : e.is_dir = true) :
    ∃ n0 rest2, (buildApp (e :: rest)).1 = n0 :: rest2 ∧
      n0.depth = e.depth := by
  unfold buildApp
  rw [List.foldl_cons]
  obtain ⟨extra, s2, hfold⟩ := fold_processEntry_prefix rest
    (processEntry ([], ⟨0, 0, 0, 0⟩) e).1 (processEntry ([], ⟨0, 0, 0, 0⟩) e).2
  rw [Prod.mk.eta] at hfold
  rw [hfold]
  dsimp only
  rw [processEntry_fst]
  rw [if_pos he]
  dsimp only [List.nil_append, List.cons_append]
  exact ⟨_, _, rfl, rfl⟩

/-- `App.new` establishes the selection invariant, given the walker
contract (the first walk entry, when present, is the root directory at
depth 0). -/
theorem new_selInv (fsys : Fsys) (path : Path) (entries : List WalkEntry)
    (hfst : firstEntryRootOk entries = true) :
    selInv (App.new fsys path entries) = true := by
  cases entries with
  | nil => rfl
  | cons e rest =>
    have he : e.depth = 0 ∧ e.is_dir = true := by
      unfold firstEntryRootOk at hfst
      simpa using hfst
    obtain ⟨n0, rest2, hb, hd0⟩ := buildApp_cons_head e rest he.2
    unfold App.new
    dsimp only
    rw [hb]
    simp only [List.isEmpty_cons, Bool.false_eq_true, if_false]
    have hf := update_preview_fields fsys
      { nodes := n0 :: rest2, animation_depth := 0,
        animation_complete := false, stats := (buildApp (e :: rest)).2,
        root_path := path, scroll_offset := 0, selected_index := some 0,
        animation_frame := 0, preview_contents := [],
        preview_scroll_offset := 0, last_click_time := none,
        last_click_index := none } 0
    apply selInv_of_fields _ 0 n0
    · exact hf.2.1
    · rw [hf.1]; simp
    · rw [hf.2.2.2.2.1]
      rw [hd0, he.1]

/-- Claim C4: whenever `selected_index` is `some i`, node `i` is already
revealed (`depth ≤ animation_depth`); this invariant is preserved by
`select_previous`, `select_next`, `handle_mouse_click` (given unique
node paths) and `increment_animation`, and it is established by the
initial construction `App.new` under the walker contract. -/
theorem c4_selection_invariant (fsys : Fsys) (app : App) (row : Nat)
    (area : Rect) (now : Nat) (path : Path) (entries : List WalkEntry)
    (hInv : selInv app = true)
    (hnd : (app.nodes.map FileNode.path).Nodup)
    (hfst : firstEntryRootOk entries = true) :
    selInv (App.select_previous fsys app) = true ∧
      selInv (App.select_next fsys app) = true ∧
      selInv (App.handle_mouse_click fsys app row area now).1 = true ∧
      selInv app.increment_animation = true ∧
      selInv (App.new fsys path entries) = true :=
  ⟨select_previous_selInv fsys app hInv,
    select_next_selInv fsys app hInv,
    handle_mouse_click_selInv fsys app row area now hnd hInv,
    increment_animation_selInv app hInv,
    new_selInv fsys path entries hfst⟩

/-- Claim C4, witness at the concrete click fixture and build scenario. -/
theorem c4_witness :
    selInv (App.handle_mouse_click (fun _ => none) clickApp 1 ⟨0, 3⟩
        100).1 = true ∧
      selInv (App.new (fun _ => none) ["root"] c2Entries) = true :=
  have h := c4_selection_invariant (fun _ => none) clickApp 1 ⟨0, 3⟩ 100
    ["root"] c2Entries (by decide) (by decide) (by decide)
  ⟨h.2.2.1, h.2.2.2.2⟩

end Planter
